import Mathlib

/-!
Verification of the anagram module (`anagram.py`).

The module is shallowly embedded: Python strings are modelled as `List Char`,
with `str.strip` / `str.lower` / `str.isalpha` modelled character-exactly on
the Latin-1 plane (code points up to 255, covering the dictionary alphabet
and the Unicode-letter behaviour that distinguishes `str.isalpha` from an
a-z test; code points above 255 are outside the modelled plane).  Python
exceptions are modelled with `Except`, the `random`-module calls (`shuffle`,
`choice`) are modelled by explicitly passed outcomes constrained by
permutation hypotheses, and the lazily initialised module-level globals are
modelled by an explicit state record threaded through `initModel`.
-/

/-- A Python string, modelled as its list of characters. -/
abbrev Str := List Char

/-- A dictionary word (`Word` in the spec's data model): a loaded string. -/
abbrev Word := Str

/-- Python's whitespace test used by `str.strip`, exact on Latin-1:
tab through carriage return (9-13), the file/group/record/unit separators
(28-31), space (32), next line (133) and no-break space (160) are the code
points below 256 for which `str.isspace()` holds. -/
def pyIsSpaceChar (c : Char) : Bool :=
  (9 ≤ c.toNat && c.toNat ≤ 13) || (28 ≤ c.toNat && c.toNat ≤ 32) ||
  c.toNat = 133 || c.toNat = 160

/-- Python's `str.strip()`: drop whitespace from both ends. -/
def pyStrip (s : Str) : Str :=
  ((s.dropWhile pyIsSpaceChar).reverse.dropWhile pyIsSpaceChar).reverse

/-- Python's `str.lower` on one character, exact on Latin-1: the cased
uppercase letters below 256 are A-Z (65-90), À-Ö (192-214) and Ø-Þ
(216-222), and each lowercases to its code point plus 32. -/
def pyLowerChar (c : Char) : Char :=
  if (65 ≤ c.toNat ∧ c.toNat ≤ 90) ∨ (192 ≤ c.toNat ∧ c.toNat ≤ 214) ∨
      (216 ≤ c.toNat ∧ c.toNat ≤ 222) then
    Char.ofNat (c.toNat + 32)
  else c

/-- Python's `str.lower()`. -/
def pyLower (s : Str) : Str := s.map pyLowerChar

/-- Python's `str.isalpha` on one character, exact on Latin-1: besides A-Z
and a-z, the letters below 256 are ª (170), µ (181), º (186), À-Ö
(192-214), Ø-ö (216-246) and ø-ÿ (248-255). -/
def pyIsAlphaChar (c : Char) : Bool :=
  (65 ≤ c.toNat && c.toNat ≤ 90) || (97 ≤ c.toNat && c.toNat ≤ 122) ||
  c.toNat = 170 || c.toNat = 181 || c.toNat = 186 ||
  (192 ≤ c.toNat && c.toNat ≤ 214) || (216 ≤ c.toNat && c.toNat ≤ 246) ||
  (248 ≤ c.toNat && c.toNat ≤ 255)

/-- Python's `str.isalpha()`: nonempty and every character alphabetic. -/
def pyIsAlpha (s : Str) : Bool := !s.isEmpty && s.all pyIsAlphaChar

/-- A lowercase letter a-z (the alphabet the spec's validation admits). -/
def isLowerAZ (c : Char) : Bool := 97 ≤ c.toNat && c.toNat ≤ 122

/-- `_signature`: `"".join(sorted(s))` — the characters sorted ascending. -/
def signature (s : Str) : Str := List.insertionSort (· ≤ ·) s

/-- The logical name interpolated into a validation error message. -/
inductive ArgName where
  | puzzle : ArgName
  | answer : ArgName
  deriving DecidableEq, Repr

/-- The error taxonomy of the module: each constructor is one of the
exceptions `anagram.py` can raise. -/
inductive Err where
  /-- `FileNotFoundError` from `_load_words`. -/
  | fileNotFound : Err
  /-- `ValueError`: dictionary file is empty. -/
  | emptyDictionary : Err
  /-- `ValueError`: `{name} cannot be empty`. -/
  | emptyInput : ArgName → Err
  /-- `ValueError`: `{name} must contain only alphabetic characters`. -/
  | nonAlphabetic : ArgName → Err
  /-- `ValueError`: difficulty must be an int from 1 to 5. -/
  | invalidDifficulty : Err
  /-- `RuntimeError`: no words with vowels in this difficulty bucket. -/
  | noEligibleWords : Err
  /-- `RuntimeError`: all vowel mutations are valid dictionary words. -/
  | cannotGenerateUnsolvable : Err
  /-- `RuntimeError`: no words available to create difficulty buckets. -/
  | noBuckets : Err
  /-- `IndexError` from `random.choice` on an empty sequence. -/
  | indexError : Err
  deriving DecidableEq, Repr

/-- `_validate_input`: strip, lowercase, reject empty and non-alphabetic. -/
def validateInput (s : Str) (name : ArgName) : Except Err Str :=
  let normalized := pyLower (pyStrip s)
  if normalized = [] then .error (.emptyInput name)
  else if !(pyIsAlpha normalized) then .error (.nonAlphabetic name)
  else .ok normalized

/-- The anagram map built by `_init`: fold over the loaded words, appending
each word to the class keyed by its own signature (a `defaultdict(list)`
modelled as a total function with default `[]`). -/
def buildAnagramMap (words : List Word) : Str → List Word :=
  words.foldl
    (fun m w => fun s => if s = signature w then m s ++ [w] else m s)
    (fun _ => [])

/-- `sig in _ANAGRAM_MAP`: some loaded word has this signature
(the dict's keys are exactly the signatures of the loaded words). -/
def sigMem (words : List Word) (sig : Str) : Bool :=
  words.any (fun w => signature w == sig)

/-- `solve`: validate the puzzle, look its signature up in the anagram map. -/
def solve (words : List Word) (puzzle : Str) : Except Err (List Word) :=
  match validateInput puzzle .puzzle with
  | .error e => .error e
  | .ok puzzleNorm => .ok (buildAnagramMap words (signature puzzleNorm))

/-- `verify`: validate both arguments, compare signatures, then test list
membership of the normalized answer in the puzzle's anagram class. -/
def verify (words : List Word) (puzzle answer : Str) : Except Err Bool :=
  match validateInput puzzle .puzzle with
  | .error e => .error e
  | .ok puzzleNorm =>
    match validateInput answer .answer with
    | .error e => .error e
    | .ok answerNorm =>
      let puzzleSig := signature puzzleNorm
      let answerSig := signature answerNorm
      if puzzleSig ≠ answerSig then .ok false
      else .ok (decide (answerNorm ∈ buildAnagramMap words puzzleSig))

/-- `_difficulty_for_length`, with the globals `_MIN_LEN` / `_MAX_LEN` passed
explicitly.  Python's `//` is floor division, `Int.fdiv`. -/
def difficultyForLength (minLen maxLen : Nat) (length : Nat) : Int :=
  if maxLen = minLen then 3
  else
    let span : Int := ((maxLen : Int) - (minLen : Int)) + 1
    let idx : Int := (((length : Int) - (minLen : Int)) * 5).fdiv span
    max 1 (min 5 (idx + 1))

/-- The spec's difficulty formula, written from its words: difficulty 3 when
`maxLen == minLen`, else `clamp(floor((L - minLen) * 5 / span) + 1, 1, 5)`
with `span = maxLen - minLen + 1`. -/
def difficultySpec (minLen maxLen : Nat) (length : Nat) : Int :=
  if maxLen = minLen then 3
  else
    max 1 (min 5
      ((((length : Int) - (minLen : Int)) * 5).fdiv
        (((maxLen : Int) - (minLen : Int)) + 1) + 1))

/-- `min(len(w) for w in words)` (only evaluated on nonempty lists). -/
def minLenOf (words : List Word) : Nat :=
  match words with
  | [] => 0
  | w :: rest => rest.foldl (fun m x => Nat.min m x.length) w.length

/-- `max(len(w) for w in words)` (only evaluated on nonempty lists). -/
def maxLenOf (words : List Word) : Nat :=
  match words with
  | [] => 0
  | w :: rest => rest.foldl (fun m x => Nat.max m x.length) w.length

/-- `_load_words`: the file is `none` when absent, otherwise its lines.
Each line is stripped; blank lines are skipped; the rest are lowercased,
in file order with duplicates kept. -/
def loadWords (file : Option (List Str)) : Except Err (List Word) :=
  match file with
  | none => .error .fileNotFound
  | some lines =>
    let words := lines.filterMap (fun line =>
      let w := pyStrip line
      if w = [] then none else some (pyLower w))
    if words = [] then .error .emptyDictionary else .ok words

/-- The word-bucketing loop of `_init`: append each word to the difficulty
bucket for its length (a `defaultdict(list)` keyed by `Int`, default `[]`). -/
def buildBuckets (minLen maxLen : Nat) (words : List Word) : Int → List Word :=
  words.foldl
    (fun b w => fun d =>
      if d = difficultyForLength minLen maxLen w.length then b d ++ [w] else b d)
    (fun _ => [])

/-- The nearest-bucket search of `_init`'s fallback fill: for
`delta = 1, 2, 3, 4`, check bucket `d - delta` then `d + delta`; the first
nonempty one wins. -/
def findNearest (b : Int → List Word) (d : Int) : Option Int :=
  [(1 : Int), 2, 3, 4].findSome? (fun delta =>
    if b (d - delta) ≠ [] then some (d - delta)
    else if b (d + delta) ≠ [] then some (d + delta)
    else none)

/-- One iteration of the fallback-fill loop: skip a nonempty bucket `d`,
otherwise copy the nearest nonempty bucket into it, or fail. -/
def fillBucket (b : Int → List Word) (d : Int) : Except Err (Int → List Word) :=
  if b d ≠ [] then .ok b
  else
    match findNearest b d with
    | none => .error .noBuckets
    | some k => .ok (fun x => if x = d then b k else b x)

/-- The fallback-fill pass of `_init` over buckets `1..5` in order. -/
def fallbackFill (b : Int → List Word) : Except Err (Int → List Word) :=
  [(1 : Int), 2, 3, 4, 5].foldlM fillBucket b

/-- The difficulty buckets exactly as `_init` leaves them: built by length,
then fallback-filled. -/
def initBuckets (words : List Word) : Except Err (Int → List Word) :=
  fallbackFill (buildBuckets (minLenOf words) (maxLenOf words) words)

/-- The module-level globals of `anagram.py`. -/
structure ModState where
  anagramMap : Option (Str → List Word)
  bucketWords : Option (Int → List Word)
  minLen : Option Nat
  maxLen : Option Nat

/-- `_init`, with the global state and the dictionary file explicit: returns
the state as the call leaves it, plus the exception if one propagates.
Mutation order follows the source: `_MIN_LEN` / `_MAX_LEN` are assigned
right after a successful load, the two maps only at the very end. -/
def initModel (st : ModState) (file : Option (List Str)) :
    ModState × Option Err :=
  if st.anagramMap.isSome && st.bucketWords.isSome then (st, none)
  else
    match loadWords file with
    | .error e => (st, some e)
    | .ok words =>
      match fallbackFill (buildBuckets (minLenOf words) (maxLenOf words) words) with
      | .error e =>
        ({ st with minLen := some (minLenOf words),
                   maxLen := some (maxLenOf words) }, some e)
      | .ok bw =>
        ({ st with minLen := some (minLenOf words),
                   maxLen := some (maxLenOf words),
                   anagramMap := some (buildAnagramMap words),
                   bucketWords := some bw }, none)

/-- The inner `for j in range(i + 1, n)` of `_shuffle_not_identity`'s
fallback: first later index whose letter differs from `letters[idx1]`. -/
def findSwapInner (letters : List Char) (idx1 : Nat) (rest : List Nat) :
    Option Nat :=
  match rest with
  | [] => none
  | idx2 :: rest2 =>
    if letters.getD idx1 'a' ≠ letters.getD idx2 'a' then some idx2
    else findSwapInner letters idx1 rest2

/-- The nested index scan of `_shuffle_not_identity`'s fallback: first pair
of positions in `indices` (in scan order) holding distinct letters. -/
def findSwap (letters : List Char) (indices : List Nat) : Option (Nat × Nat) :=
  match indices with
  | [] => none
  | idx1 :: rest =>
    match findSwapInner letters idx1 rest with
    | some idx2 => some (idx1, idx2)
    | none => findSwap letters rest

/-- Python's simultaneous `letters[i], letters[j] = letters[j], letters[i]`. -/
def listSwap (l : List Char) (i j : Nat) : List Char :=
  (l.set i (l.getD j 'a')).set j (l.getD i 'a')

/-- `_shuffle_not_identity`, with the two `random.shuffle` outcomes passed
explicitly: `shuffled` is the shuffled copy of the word's letters, `indices`
the shuffled copy of `range(len(word))` used by the fallback scan. -/
def shuffleNotIdentity (word : Str) (shuffled : Str) (indices : List Nat) :
    Str :=
  if shuffled ≠ word then shuffled
  else
    match findSwap word indices with
    | some (i, j) => listSwap word i j
    | none => shuffled

/-- `_VOWELS = set("aeiou")`. -/
def VOWELS : List Char := ['a', 'e', 'i', 'o', 'u']

/-- `any(ch in _VOWELS for ch in w)`. -/
def hasVowel (w : Str) : Bool := w.any (fun c => VOWELS.contains c)

/-- `_single_vowel_mutations`: for each vowel position (ascending) and each
of the other four vowels (in `"aeiou"` order), the word with that single
position substituted. -/
def singleVowelMutations (word : Str) : List Str :=
  let letters := word
  let vowelPositions :=
    (List.range letters.length).filter
      (fun i => VOWELS.contains (letters.getD i 'a'))
  vowelPositions.flatMap (fun pos =>
    (VOWELS.filter (fun v => v ≠ letters.getD pos 'a')).map
      (fun v => letters.set pos v))

/-- The search loop of `_generate_unsolvable_from_words`: first mutation,
over the shuffled candidate words and each word's mutations in order, whose
signature is absent from the anagram map. -/
def findUnsolvable (dictWords : List Word) (shuffledWords : List Word) :
    Option Str :=
  shuffledWords.findSome? (fun base =>
    (singleVowelMutations base).find?
      (fun m => !(sigMem dictWords (signature m))))

/-- `_generate_unsolvable_from_words`, with the `random.shuffle` of the
candidate list and the shuffles inside `_shuffle_not_identity` passed as
explicit outcomes (`shuffleList`, and the per-string `shuffleStr` /
`shuffleIdx`). -/
def generateUnsolvableFromWords (dictWords words : List Word)
    (shuffleList : List Word → List Word)
    (shuffleStr : Str → Str) (shuffleIdx : Str → List Nat) :
    Except Err Str :=
  let wordsWithVowels := words.filter hasVowel
  if wordsWithVowels = [] then .error .noEligibleWords
  else
    match findUnsolvable dictWords (shuffleList wordsWithVowels) with
    | some mutated =>
      .ok (shuffleNotIdentity mutated (shuffleStr mutated) (shuffleIdx mutated))
    | none => .error .cannotGenerateUnsolvable

/-- `generate_puzzle`, over an initialised state (`dictWords` and the filled
`buckets`), with every `random` outcome passed explicitly: `randDifficulty`
is the `choice((1,...,5))` outcome, `choose` the `choice(words)` outcome,
and the three shuffle oracles as in `generateUnsolvableFromWords`.  A
`choice` on an empty bucket is Python's `IndexError`. -/
def generatePuzzle (dictWords : List Word) (buckets : Int → List Word)
    (difficulty : Option Int) (unsolvable : Bool)
    (randDifficulty : Int) (choose : List Word → Word)
    (shuffleList : List Word → List Word)
    (shuffleStr : Str → Str) (shuffleIdx : Str → List Nat) :
    Except Err Str :=
  let d := match difficulty with | none => randDifficulty | some d0 => d0
  if d ∈ ([1, 2, 3, 4, 5] : List Int) then
    let words := buckets d
    if !unsolvable then
      if words = [] then .error .indexError
      else
        let base := choose words
        .ok (shuffleNotIdentity base (shuffleStr base) (shuffleIdx base))
    else
      generateUnsolvableFromWords dictWords words shuffleList shuffleStr
        shuffleIdx
  else .error .invalidDifficulty

theorem char_toNat_ofNat {n : Nat} (h : n < 55296) : (Char.ofNat n).toNat = n := by
  rw [Char.ofNat, dif_pos (Or.inl h)]
  rfl

theorem pyLowerChar_toNat (c : Char) :
    (pyLowerChar c).toNat =
      (if (65 ≤ c.toNat ∧ c.toNat ≤ 90) ∨ (192 ≤ c.toNat ∧ c.toNat ≤ 214) ∨
          (216 ≤ c.toNat ∧ c.toNat ≤ 222) then c.toNat + 32 else c.toNat) := by
  rw [pyLowerChar]
  by_cases h : (65 ≤ c.toNat ∧ c.toNat ≤ 90) ∨ (192 ≤ c.toNat ∧ c.toNat ≤ 214) ∨
      (216 ≤ c.toNat ∧ c.toNat ≤ 222)
  · rw [if_pos h, if_pos h]
    exact char_toNat_ofNat (by omega)
  · rw [if_neg h, if_neg h]

theorem pyLowerChar_of_upper {c : Char} (h1 : 65 ≤ c.toNat) (h2 : c.toNat ≤ 90) :
    (pyLowerChar c).toNat = c.toNat + 32 := by
  rw [pyLowerChar_toNat, if_pos (Or.inl ⟨h1, h2⟩)]

theorem pyLowerChar_of_not_upper {c : Char}
    (h : ¬((65 ≤ c.toNat ∧ c.toNat ≤ 90) ∨ (192 ≤ c.toNat ∧ c.toNat ≤ 214) ∨
      (216 ≤ c.toNat ∧ c.toNat ≤ 222))) :
    pyLowerChar c = c := by
  rw [pyLowerChar, if_neg h]

theorem pyLowerChar_eq_self_of_lowerAZ {c : Char} (h : isLowerAZ c = true) :
    pyLowerChar c = c := by
  simp only [isLowerAZ, Bool.and_eq_true, decide_eq_true_eq] at h
  exact pyLowerChar_of_not_upper (by omega)

theorem pyLowerChar_not_upper (c : Char) :
    ¬(65 ≤ (pyLowerChar c).toNat ∧ (pyLowerChar c).toNat ≤ 90) := by
  have ht := pyLowerChar_toNat c
  by_cases h : (65 ≤ c.toNat ∧ c.toNat ≤ 90) ∨ (192 ≤ c.toNat ∧ c.toNat ≤ 214) ∨
      (216 ≤ c.toNat ∧ c.toNat ≤ 222)
  · rw [if_pos h] at ht
    omega
  · rw [if_neg h] at ht
    omega

theorem pyLowerChar_ascii {c : Char} (hA : c.toNat ≤ 127) :
    (pyLowerChar c).toNat ≤ 127 := by
  have ht := pyLowerChar_toNat c
  by_cases h : (65 ≤ c.toNat ∧ c.toNat ≤ 90) ∨ (192 ≤ c.toNat ∧ c.toNat ≤ 214) ∨
      (216 ≤ c.toNat ∧ c.toNat ≤ 222)
  · rw [if_pos h] at ht
    omega
  · rw [if_neg h] at ht
    omega

theorem pyIsAlphaChar_pyLowerChar {c : Char} (hA : c.toNat ≤ 127) :
    pyIsAlphaChar (pyLowerChar c) = isLowerAZ (pyLowerChar c) := by
  have h1 := pyLowerChar_not_upper c
  have h2 := pyLowerChar_ascii hA
  cases hl : isLowerAZ (pyLowerChar c) with
  | true =>
    simp only [isLowerAZ, Bool.and_eq_true, decide_eq_true_eq] at hl
    simp only [pyIsAlphaChar, Bool.or_eq_true, Bool.and_eq_true,
      decide_eq_true_eq]
    omega
  | false =>
    simp only [isLowerAZ, Bool.and_eq_false_iff, decide_eq_false_iff_not] at hl
    simp only [pyIsAlphaChar, Bool.or_eq_false_iff, Bool.and_eq_false_iff,
      decide_eq_false_iff_not]
    omega

theorem pyIsSpaceChar_of_lowerAZ {c : Char} (h : isLowerAZ c = true) :
    pyIsSpaceChar c = false := by
  simp only [isLowerAZ, Bool.and_eq_true, decide_eq_true_eq] at h
  simp only [pyIsSpaceChar, Bool.or_eq_false_iff, Bool.and_eq_false_iff,
    decide_eq_false_iff_not]
  omega

theorem pyIsAlphaChar_of_lowerAZ {c : Char} (h : isLowerAZ c = true) :
    pyIsAlphaChar c = true := by
  simp only [isLowerAZ, Bool.and_eq_true, decide_eq_true_eq] at h
  simp only [pyIsAlphaChar, Bool.or_eq_true, Bool.and_eq_true,
    decide_eq_true_eq]
  omega

theorem dropWhile_eq_self_of_false {p : Char → Bool} {l : Str}
    (h : ∀ c ∈ l, p c = false) : l.dropWhile p = l := by
  cases l with
  | nil => rfl
  | cons a l => simp [List.dropWhile_cons, h a (List.mem_cons_self a l)]

theorem pyStrip_eq_self_of (s : Str) (h : ∀ c ∈ s, pyIsSpaceChar c = false) :
    pyStrip s = s := by
  rw [pyStrip, dropWhile_eq_self_of_false h,
    dropWhile_eq_self_of_false (fun c hc => h c (List.mem_reverse.mp hc)),
    List.reverse_reverse]

theorem map_eq_self_of {f : Char → Char} {l : Str} (h : ∀ c ∈ l, f c = c) :
    l.map f = l := by
  induction l with
  | nil => rfl
  | cons a l ih =>
    simp only [List.map_cons, h a (List.mem_cons_self a l)]
    rw [ih (fun c hc => h c (List.mem_cons_of_mem a hc))]

theorem pyLower_eq_self_of (s : Str) (h : ∀ c ∈ s, isLowerAZ c = true) :
    pyLower s = s :=
  map_eq_self_of (fun c hc => pyLowerChar_eq_self_of_lowerAZ (h c hc))

theorem pyIsAlpha_of_lowerAZ {s : Str} (hne : s ≠ [])
    (h : ∀ c ∈ s, isLowerAZ c = true) : pyIsAlpha s = true := by
  rw [pyIsAlpha, Bool.and_eq_true]
  constructor
  · simp [List.isEmpty_iff, hne]
  · exact List.all_eq_true.mpr (fun c hc => pyIsAlphaChar_of_lowerAZ (h c hc))

theorem validateInput_ok_of_lowerAZ {s : Str} (name : ArgName) (hne : s ≠ [])
    (h : ∀ c ∈ s, isLowerAZ c = true) : validateInput s name = .ok s := by
  have hstrip : pyStrip s = s :=
    pyStrip_eq_self_of s (fun c hc => pyIsSpaceChar_of_lowerAZ (h c hc))
  have hlower : pyLower s = s := pyLower_eq_self_of s h
  have halpha : pyIsAlpha s = true := pyIsAlpha_of_lowerAZ hne h
  rw [validateInput]
  simp only [hstrip, hlower, halpha]
  simp [hne]

theorem signature_perm {a b : Str} (h : a.Perm b) : signature a = signature b :=
  List.eq_of_perm_of_sorted
    ((List.perm_insertionSort _ a).trans (h.trans (List.perm_insertionSort _ b).symm))
    (List.sorted_insertionSort _ a) (List.sorted_insertionSort _ b)

theorem perm_of_signature_eq {a b : Str} (h : signature a = signature b) :
    a.Perm b := by
  have ha := List.perm_insertionSort (fun x y : Char => x ≤ y) a
  have hb := List.perm_insertionSort (fun x y : Char => x ≤ y) b
  have hab : List.Perm (signature a) b := by
    rw [h]
    exact hb
  exact ha.symm.trans hab

theorem foldl_anagramMap (l : List Word) (m : Str → List Word) (s : Str) :
    (l.foldl
      (fun m w => fun s' => if s' = signature w then m s' ++ [w] else m s') m) s
      = m s ++ l.filter (fun w => signature w == s) := by
  induction l generalizing m with
  | nil => simp
  | cons w l ih =>
    simp only [List.foldl_cons, ih, List.filter_cons]
    by_cases hs : s = signature w
    · rw [if_pos hs, if_pos (by simp [hs]), List.append_assoc]
      rfl
    · rw [if_neg hs, if_neg (by simp [beq_iff_eq]; exact fun hc => hs hc.symm)]

theorem buildAnagramMap_eq_filter (words : List Word) (s : Str) :
    buildAnagramMap words s = words.filter (fun w => signature w == s) := by
  rw [buildAnagramMap, foldl_anagramMap]
  rfl

theorem sigMem_false_iff (words : List Word) (s : Str) :
    sigMem words s = false ↔ ∀ w ∈ words, signature w ≠ s := by
  rw [sigMem, List.any_eq_false]
  simp [beq_iff_eq]

theorem buildAnagramMap_eq_nil_of_sigMem_false {words : List Word} {s : Str}
    (h : sigMem words s = false) : buildAnagramMap words s = [] := by
  rw [buildAnagramMap_eq_filter, List.filter_eq_nil_iff]
  intro w hw
  simp only [beq_iff_eq]
  exact (sigMem_false_iff words s).mp h w hw

theorem mem_buildAnagramMap_self {words : List Word} {w : Word}
    (hw : w ∈ words) : w ∈ buildAnagramMap words (signature w) := by
  rw [buildAnagramMap_eq_filter]
  exact List.mem_filter.mpr ⟨hw, by simp⟩

theorem solve_ok_of_lowerAZ (words : List Word) {p : Str} (hne : p ≠ [])
    (h : ∀ c ∈ p, isLowerAZ c = true) :
    solve words p = .ok (buildAnagramMap words (signature p)) := by
  rw [solve, validateInput_ok_of_lowerAZ _ hne h]

theorem difficultyForLength_eq_spec (minLen maxLen length : Nat) :
    difficultyForLength minLen maxLen length = difficultySpec minLen maxLen length := rfl

theorem difficultyForLength_range (minLen maxLen length : Nat) :
    1 ≤ difficultyForLength minLen maxLen length ∧
      difficultyForLength minLen maxLen length ≤ 5 := by
  by_cases hc : maxLen = minLen
  · simp only [difficultyForLength, if_pos hc]
    omega
  · simp only [difficultyForLength, if_neg hc]
    refine ⟨le_max_left 1 _, max_le (by omega) (le_trans (min_le_left _ _) (le_refl 5))⟩

theorem difficultyForLength_mono {minLen maxLen : Nat} (hmm : minLen ≤ maxLen)
    {L1 L2 : Nat} (h : L1 ≤ L2) :
    difficultyForLength minLen maxLen L1 ≤ difficultyForLength minLen maxLen L2 := by
  by_cases hc : maxLen = minLen
  · simp only [difficultyForLength, if_pos hc]
    exact le_refl 3
  · simp only [difficultyForLength, if_neg hc]
    have hspan : (0 : Int) < ((maxLen : Int) - (minLen : Int)) + 1 := by omega
    have hnum : (((L1 : Nat) : Int) - (minLen : Int)) * 5 ≤
        (((L2 : Nat) : Int) - (minLen : Int)) * 5 := by omega
    have hdiv := Int.ediv_le_ediv hspan hnum
    rw [Int.fdiv_eq_ediv _ (by omega), Int.fdiv_eq_ediv _ (by omega)]
    exact max_le_max (le_refl 1) (min_le_min (le_refl 5) (by omega))

theorem foldl_buckets (l : List Word) (key : Word → Int) (m : Int → List Word)
    (d : Int) :
    (l.foldl (fun b w => fun d' => if d' = key w then b d' ++ [w] else b d') m) d
      = m d ++ l.filter (fun w => key w == d) := by
  induction l generalizing m with
  | nil => simp
  | cons w l ih =>
    simp only [List.foldl_cons, ih, List.filter_cons]
    by_cases hs : d = key w
    · rw [if_pos hs, if_pos (by simp [hs]), List.append_assoc]
      rfl
    · rw [if_neg hs, if_neg (by simp [beq_iff_eq]; exact fun hc => hs hc.symm)]

theorem buildBuckets_eq_filter (mn mx : Nat) (words : List Word) (d : Int) :
    buildBuckets mn mx words d =
      words.filter (fun w => difficultyForLength mn mx w.length == d) := by
  rw [buildBuckets, foldl_buckets words (fun w => difficultyForLength mn mx w.length)]
  rfl

theorem findNearest_entry_none {b : Int → List Word} {d delta : Int}
    (h : (if b (d - delta) ≠ [] then some (d - delta)
          else if b (d + delta) ≠ [] then some (d + delta) else none) = none) :
    b (d - delta) = [] ∧ b (d + delta) = [] := by
  by_cases h1 : b (d - delta) ≠ []
  · rw [if_pos h1] at h
    cases h
  · by_cases h2 : b (d + delta) ≠ []
    · rw [if_neg h1, if_pos h2] at h
      cases h
    · exact ⟨not_not.mp h1, not_not.mp h2⟩

theorem findNearest_some_nonempty {b : Int → List Word} {d k : Int}
    (h : findNearest b d = some k) : b k ≠ [] := by
  obtain ⟨delta, _, hdelta⟩ := List.exists_of_findSome?_eq_some h
  by_cases h1 : b (d - delta) ≠ []
  · rw [if_pos h1] at hdelta
    cases hdelta
    exact h1
  · rw [if_neg h1] at hdelta
    by_cases h2 : b (d + delta) ≠ []
    · rw [if_pos h2] at hdelta
      cases hdelta
      exact h2
    · rw [if_neg h2] at hdelta
      cases hdelta

theorem findNearest_isSome {b : Int → List Word} {d k : Int}
    (hd1 : 1 ≤ d) (hd5 : d ≤ 5) (hk1 : 1 ≤ k) (hk5 : k ≤ 5) (hkd : k ≠ d)
    (hk : b k ≠ []) : (findNearest b d).isSome := by
  cases hfn : findNearest b d with
  | some k' => rfl
  | none =>
    exfalso
    have hall := List.findSome?_eq_none_iff.mp hfn
    have hcase : k = d - 1 ∨ k = d + 1 ∨ k = d - 2 ∨ k = d + 2 ∨
        k = d - 3 ∨ k = d + 3 ∨ k = d - 4 ∨ k = d + 4 := by omega
    rcases hcase with h | h | h | h | h | h | h | h
    · exact hk (h ▸ (findNearest_entry_none (hall 1 (by simp))).1)
    · exact hk (h ▸ (findNearest_entry_none (hall 1 (by simp))).2)
    · exact hk (h ▸ (findNearest_entry_none (hall 2 (by simp))).1)
    · exact hk (h ▸ (findNearest_entry_none (hall 2 (by simp))).2)
    · exact hk (h ▸ (findNearest_entry_none (hall 3 (by simp))).1)
    · exact hk (h ▸ (findNearest_entry_none (hall 3 (by simp))).2)
    · exact hk (h ▸ (findNearest_entry_none (hall 4 (by simp))).1)
    · exact hk (h ▸ (findNearest_entry_none (hall 4 (by simp))).2)

theorem fillBucket_spec {b : Int → List Word} (d : Int) (P : Word → Prop)
    (hd1 : 1 ≤ d) (hd5 : d ≤ 5)
    (hex : ∃ k, 1 ≤ k ∧ k ≤ 5 ∧ b k ≠ [])
    (hP : ∀ x, ∀ w ∈ b x, P w) :
    ∃ b', fillBucket b d = .ok b'
      ∧ b' d ≠ []
      ∧ (∀ x, b x ≠ [] → b' x ≠ [])
      ∧ (∀ x, ∀ w ∈ b' x, P w) := by
  by_cases hbd : b d ≠ []
  · exact ⟨b, by rw [fillBucket, if_pos hbd], hbd, fun x h => h, hP⟩
  · have hbd' : b d = [] := not_not.mp hbd
    obtain ⟨k, hk1, hk5, hk⟩ := hex
    have hkd : k ≠ d := fun hc => hk (hc ▸ hbd')
    obtain ⟨k', hk'⟩ := Option.isSome_iff_exists.mp
      (findNearest_isSome hd1 hd5 hk1 hk5 hkd hk)
    refine ⟨fun x => if x = d then b k' else b x, ?_, ?_, ?_, ?_⟩
    · rw [fillBucket, if_neg hbd, hk']
    · simp only [if_pos rfl]
      exact findNearest_some_nonempty hk'
    · intro x hx
      by_cases hxd : x = d
      · exact absurd (hxd ▸ hx) (not_not.mpr hbd')
      · simpa [hxd] using hx
    · intro x w hw
      by_cases hxd : x = d
      · exact hP k' w (by simpa [hxd] using hw)
      · exact hP x w (by simpa [hxd] using hw)

theorem except_bind_ok {α β : Type} {x : α} (f : α → Except Err β) :
    (Except.ok x >>= f) = f x := rfl

theorem fallbackFill_spec {b0 : Int → List Word} (P : Word → Prop)
    (hex : ∃ k, 1 ≤ k ∧ k ≤ 5 ∧ b0 k ≠ [])
    (hP : ∀ x, ∀ w ∈ b0 x, P w) :
    ∃ b, fallbackFill b0 = .ok b
      ∧ (∀ d : Int, 1 ≤ d → d ≤ 5 → b d ≠ [])
      ∧ (∀ x, ∀ w ∈ b x, P w) := by
  obtain ⟨b1, e1, n1, m1, p1⟩ := fillBucket_spec 1 P (by omega) (by omega) hex hP
  obtain ⟨b2, e2, n2, m2, p2⟩ := fillBucket_spec 2 P (by omega) (by omega)
    ⟨1, by omega, by omega, n1⟩ p1
  obtain ⟨b3, e3, n3, m3, p3⟩ := fillBucket_spec 3 P (by omega) (by omega)
    ⟨2, by omega, by omega, n2⟩ p2
  obtain ⟨b4, e4, n4, m4, p4⟩ := fillBucket_spec 4 P (by omega) (by omega)
    ⟨3, by omega, by omega, n3⟩ p3
  obtain ⟨b5, e5, n5, m5, p5⟩ := fillBucket_spec 5 P (by omega) (by omega)
    ⟨4, by omega, by omega, n4⟩ p4
  refine ⟨b5, ?_, ?_, p5⟩
  · rw [fallbackFill]
    simp only [List.foldlM, e1, except_bind_ok, e2, e3, e4, e5]
    rfl
  · intro d hd1 hd5
    have hcase : d = 1 ∨ d = 2 ∨ d = 3 ∨ d = 4 ∨ d = 5 := by omega
    rcases hcase with h | h | h | h | h <;> subst h
    · exact m5 _ (m4 _ (m3 _ (m2 _ n1)))
    · exact m5 _ (m4 _ (m3 _ n2))
    · exact m5 _ (m4 _ n3)
    · exact m5 _ n4
    · exact n5

theorem initBuckets_spec {words : List Word} (h : words ≠ []) :
    ∃ b, initBuckets words = .ok b
      ∧ (∀ d : Int, 1 ≤ d → d ≤ 5 → b d ≠ [])
      ∧ (∀ x : Int, ∀ w ∈ b x, w ∈ words) := by
  match words, h with
  | w0 :: rest, _ =>
    have hrange := difficultyForLength_range (minLenOf (w0 :: rest))
      (maxLenOf (w0 :: rest)) w0.length
    have hmem : w0 ∈ buildBuckets (minLenOf (w0 :: rest)) (maxLenOf (w0 :: rest))
        (w0 :: rest)
        (difficultyForLength (minLenOf (w0 :: rest)) (maxLenOf (w0 :: rest))
          w0.length) := by
      rw [buildBuckets_eq_filter]
      exact List.mem_filter.mpr ⟨List.mem_cons_self _ _, by simp⟩
    exact fallbackFill_spec (fun w => w ∈ w0 :: rest)
      ⟨_, hrange.1, hrange.2, List.ne_nil_of_mem hmem⟩
      (fun x w hw => (List.mem_filter.mp
        ((buildBuckets_eq_filter _ _ _ x) ▸ hw)).1)

theorem getD_eq_getElem {l : Str} {n : Nat} (h : n < l.length) (d : Char) :
    l.getD n d = l[n] := by
  rw [List.getD_eq_getElem?_getD, List.getElem?_eq_getElem h]
  rfl

theorem getD_set_self {l : Str} {i : Nat} (hi : i < l.length) (a : Char) :
    (l.set i a).getD i 'a' = a := by
  induction l generalizing i with
  | nil => cases hi
  | cons b t ih =>
    cases i with
    | zero => rfl
    | succ n =>
      simp only [List.set_cons_succ, List.getD_cons_succ]
      exact ih (by simpa using hi)

theorem getD_set_ne {l : Str} {i j : Nat} (h : i ≠ j) (a : Char) :
    (l.set i a).getD j 'a' = l.getD j 'a' := by
  induction l generalizing i j with
  | nil => rfl
  | cons b t ih =>
    cases i with
    | zero =>
      cases j with
      | zero => exact absurd rfl h
      | succ m => rfl
    | succ n =>
      cases j with
      | zero => rfl
      | succ m =>
        simp only [List.set_cons_succ, List.getD_cons_succ]
        exact ih (fun hc => h (by rw [hc]))

theorem getD_cons_swap_perm {t : Str} {m : Nat} (hm : m < t.length) (a : Char) :
    List.Perm (t.getD m 'a' :: t.set m a) (a :: t) := by
  induction t generalizing m with
  | nil => cases hm
  | cons b t2 ih =>
    cases m with
    | zero =>
      simp only [List.getD_cons_zero, List.set_cons_zero]
      exact List.Perm.swap a b t2
    | succ k =>
      have hk : k < t2.length := by simpa using hm
      simp only [List.getD_cons_succ, List.set_cons_succ]
      exact ((List.Perm.swap b (t2.getD k 'a') (t2.set k a)).trans
        (List.Perm.cons b (ih hk))).trans (List.Perm.swap a b t2)

theorem listSwap_perm {l : Str} {i j : Nat} (hi : i < l.length)
    (hj : j < l.length) : List.Perm (listSwap l i j) l := by
  induction l generalizing i j with
  | nil => cases hi
  | cons a t ih =>
    cases i with
    | zero =>
      cases j with
      | zero =>
        simp only [listSwap, List.getD_cons_zero, List.set_cons_zero]
        exact List.Perm.refl _
      | succ m =>
        have hm : m < t.length := by simpa using hj
        simp only [listSwap, List.getD_cons_zero, List.getD_cons_succ,
          List.set_cons_zero, List.set_cons_succ]
        exact getD_cons_swap_perm hm a
    | succ n =>
      cases j with
      | zero =>
        have hn : n < t.length := by simpa using hi
        simp only [listSwap, List.getD_cons_zero, List.getD_cons_succ,
          List.set_cons_zero, List.set_cons_succ]
        exact getD_cons_swap_perm hn a
      | succ m =>
        simp only [listSwap, List.getD_cons_succ, List.set_cons_succ]
        exact List.Perm.cons a (ih (by simpa using hi) (by simpa using hj))

theorem listSwap_getD_left {l : Str} {i j : Nat} (hi : i < l.length)
    (hij : i ≠ j) : (listSwap l i j).getD i 'a' = l.getD j 'a' := by
  rw [listSwap, getD_set_ne (Ne.symm hij), getD_set_self hi]

theorem listSwap_ne {l : Str} {i j : Nat} (hi : i < l.length)
    (hj : j < l.length) (hne : l.getD i 'a' ≠ l.getD j 'a') :
    listSwap l i j ≠ l := by
  have hij : i ≠ j := fun hc => hne (by rw [hc])
  intro hcon
  have h1 := listSwap_getD_left (l := l) hi hij
  rw [hcon] at h1
  exact hne h1

theorem findSwapInner_some {letters : Str} {idx1 : Nat} {rest : List Nat}
    {j : Nat} (h : findSwapInner letters idx1 rest = some j) :
    j ∈ rest ∧ letters.getD idx1 'a' ≠ letters.getD j 'a' := by
  induction rest with
  | nil => cases h
  | cons idx2 rest2 ih =>
    rw [findSwapInner] at h
    by_cases hc : letters.getD idx1 'a' ≠ letters.getD idx2 'a'
    · rw [if_pos hc] at h
      cases h
      exact ⟨List.mem_cons_self _ _, hc⟩
    · rw [if_neg hc] at h
      obtain ⟨hj, hne⟩ := ih h
      exact ⟨List.mem_cons_of_mem _ hj, hne⟩

theorem findSwapInner_none {letters : Str} {idx1 : Nat} {rest : List Nat}
    (h : findSwapInner letters idx1 rest = none) :
    ∀ j ∈ rest, letters.getD idx1 'a' = letters.getD j 'a' := by
  induction rest with
  | nil =>
    intro j hj
    cases hj
  | cons idx2 rest2 ih =>
    rw [findSwapInner] at h
    by_cases hc : letters.getD idx1 'a' ≠ letters.getD idx2 'a'
    · rw [if_pos hc] at h
      cases h
    · rw [if_neg hc] at h
      intro j hj
      rcases List.mem_cons.mp hj with rfl | hj2
      · exact not_not.mp hc
      · exact ih h j hj2

theorem findSwap_some {letters : Str} {indices : List Nat} {i j : Nat}
    (h : findSwap letters indices = some (i, j)) :
    i ∈ indices ∧ j ∈ indices ∧ letters.getD i 'a' ≠ letters.getD j 'a' := by
  induction indices with
  | nil => cases h
  | cons idx1 rest ih =>
    rw [findSwap] at h
    cases hinner : findSwapInner letters idx1 rest with
    | some idx2 =>
      rw [hinner] at h
      cases h
      obtain ⟨hj, hne⟩ := findSwapInner_some hinner
      exact ⟨List.mem_cons_self _ _, List.mem_cons_of_mem _ hj, hne⟩
    | none =>
      rw [hinner] at h
      obtain ⟨hi, hj, hne⟩ := ih h
      exact ⟨List.mem_cons_of_mem _ hi, List.mem_cons_of_mem _ hj, hne⟩

theorem findSwap_none {letters : Str} {indices : List Nat}
    (h : findSwap letters indices = none) :
    ∀ i ∈ indices, ∀ j ∈ indices, letters.getD i 'a' = letters.getD j 'a' := by
  induction indices with
  | nil =>
    intro i hi
    cases hi
  | cons idx1 rest ih =>
    rw [findSwap] at h
    cases hinner : findSwapInner letters idx1 rest with
    | some idx2 =>
      rw [hinner] at h
      cases h
    | none =>
      rw [hinner] at h
      have hhead := findSwapInner_none hinner
      intro i hi j hj
      rcases List.mem_cons.mp hi with rfl | hi2
      · rcases List.mem_cons.mp hj with rfl | hj2
        · rfl
        · exact hhead j hj2
      · rcases List.mem_cons.mp hj with rfl | hj2
        · exact (hhead i hi2).symm
        · exact ih h i hi2 j hj2

theorem shuffleNotIdentity_perm {word shuffled : Str} {indices : List Nat}
    (hs : List.Perm shuffled word)
    (hi : List.Perm indices (List.range word.length)) :
    List.Perm (shuffleNotIdentity word shuffled indices) word := by
  rw [shuffleNotIdentity]
  by_cases hc : shuffled ≠ word
  · rw [if_pos hc]
    exact hs
  · rw [if_neg hc]
    cases hfs : findSwap word indices with
    | none => exact hs
    | some p =>
      obtain ⟨i, j⟩ := p
      obtain ⟨hi', hj', _⟩ := findSwap_some hfs
      exact listSwap_perm (List.mem_range.mp (hi.mem_iff.mp hi'))
        (List.mem_range.mp (hi.mem_iff.mp hj'))

theorem shuffleNotIdentity_ne {word shuffled : Str} {indices : List Nat}
    (hs : List.Perm shuffled word)
    (hi : List.Perm indices (List.range word.length))
    (hdist : ∃ a ∈ word, ∃ b ∈ word, a ≠ b) :
    shuffleNotIdentity word shuffled indices ≠ word := by
  rw [shuffleNotIdentity]
  by_cases hc : shuffled ≠ word
  · rw [if_pos hc]
    exact hc
  · rw [if_neg hc]
    cases hfs : findSwap word indices with
    | some p =>
      obtain ⟨i, j⟩ := p
      obtain ⟨hi', hj', hne⟩ := findSwap_some hfs
      exact listSwap_ne (List.mem_range.mp (hi.mem_iff.mp hi'))
        (List.mem_range.mp (hi.mem_iff.mp hj')) hne
    | none =>
      exfalso
      obtain ⟨a, ha, b, hb, hab⟩ := hdist
      obtain ⟨p, hp, hpa⟩ := List.getElem_of_mem ha
      obtain ⟨q, hq, hqb⟩ := List.getElem_of_mem hb
      have hpi : p ∈ indices := hi.mem_iff.mpr (List.mem_range.mpr hp)
      have hqi : q ∈ indices := hi.mem_iff.mpr (List.mem_range.mpr hq)
      have heq := findSwap_none hfs p hpi q hqi
      rw [getD_eq_getElem hp, getD_eq_getElem hq, hpa, hqb] at heq
      exact hab heq

theorem shuffleNotIdentity_eq_of_const {word shuffled : Str}
    {indices : List Nat} (hs : List.Perm shuffled word)
    (hi : List.Perm indices (List.range word.length))
    (hconst : ∀ a ∈ word, ∀ b ∈ word, a = b) :
    shuffleNotIdentity word shuffled indices = word := by
  have hsw : shuffled = word := by
    cases hw : word with
    | nil =>
      rw [hw] at hs
      exact hs.eq_nil
    | cons c t =>
      subst hw
      have h1 : ∀ b ∈ c :: t, b = c := fun b hb => hconst b hb c (List.mem_cons_self c t)
      have h2 : ∀ b ∈ shuffled, b = c := fun b hb => h1 b (hs.mem_iff.mp hb)
      rw [List.eq_replicate_of_mem h2, hs.length_eq, ← List.eq_replicate_of_mem h1]
  rw [shuffleNotIdentity, if_neg (not_not.mpr hsw)]
  cases hfs : findSwap word indices with
  | none => exact hsw
  | some p =>
    obtain ⟨i, j⟩ := p
    obtain ⟨hi', hj', hne⟩ := findSwap_some hfs
    have hilt := List.mem_range.mp (hi.mem_iff.mp hi')
    have hjlt := List.mem_range.mp (hi.mem_iff.mp hj')
    exfalso
    apply hne
    rw [getD_eq_getElem hilt, getD_eq_getElem hjlt]
    exact hconst _ (List.getElem_mem hilt) _ (List.getElem_mem hjlt)

theorem vowel_lowerAZ {v : Char} (h : v ∈ VOWELS) : isLowerAZ v = true := by
  simp only [VOWELS, List.mem_cons, List.not_mem_nil, or_false] at h
  rcases h with rfl | rfl | rfl | rfl | rfl <;> decide

theorem ne_nil_of_hasVowel {w : Str} (h : hasVowel w = true) : w ≠ [] := by
  rw [hasVowel, List.any_eq_true] at h
  obtain ⟨c, hc, _⟩ := h
  exact List.ne_nil_of_mem hc

theorem mem_set_subset {l : Str} {i : Nat} {a c : Char} (h : c ∈ l.set i a) :
    c ∈ l ∨ c = a := by
  induction l generalizing i with
  | nil => cases h
  | cons b t ih =>
    cases i with
    | zero =>
      rcases List.mem_cons.mp h with rfl | hc
      · exact Or.inr rfl
      · exact Or.inl (List.mem_cons_of_mem _ hc)
    | succ n =>
      rcases List.mem_cons.mp h with rfl | hc
      · exact Or.inl (List.mem_cons_self _ _)
      · rcases ih hc with h1 | h1
        · exact Or.inl (List.mem_cons_of_mem _ h1)
        · exact Or.inr h1

theorem mem_singleVowelMutations {w m : Str} (h : m ∈ singleVowelMutations w) :
    ∃ pos v, pos < w.length ∧ v ∈ VOWELS ∧ m = w.set pos v := by
  simp only [singleVowelMutations, List.mem_flatMap, List.mem_filter,
    List.mem_map, List.mem_range] at h
  obtain ⟨pos, ⟨hplt, _⟩, v, ⟨hv, _⟩, rfl⟩ := h
  exact ⟨pos, v, hplt, hv, rfl⟩

theorem mutation_lowerAZ {w m : Str} (hw : ∀ c ∈ w, isLowerAZ c = true)
    (h : m ∈ singleVowelMutations w) : ∀ c ∈ m, isLowerAZ c = true := by
  obtain ⟨pos, v, _, hv, rfl⟩ := mem_singleVowelMutations h
  intro c hc
  rcases mem_set_subset hc with h1 | rfl
  · exact hw c h1
  · exact vowel_lowerAZ hv

theorem mutation_ne_nil {w m : Str} (hw : w ≠ [])
    (h : m ∈ singleVowelMutations w) : m ≠ [] := by
  obtain ⟨pos, v, _, _, rfl⟩ := mem_singleVowelMutations h
  intro hc
  exact hw (by simpa using congrArg List.length hc)

theorem lowerAZ_pyLowerChar_of_alpha {c : Char} (h : pyIsAlphaChar c = true)
    (hA : c.toNat ≤ 127) : isLowerAZ (pyLowerChar c) = true := by
  simp only [pyIsAlphaChar, Bool.or_eq_true, Bool.and_eq_true,
    decide_eq_true_eq] at h
  have ht := pyLowerChar_toNat c
  simp only [isLowerAZ, Bool.and_eq_true, decide_eq_true_eq]
  by_cases hc : (65 ≤ c.toNat ∧ c.toNat ≤ 90) ∨
      (192 ≤ c.toNat ∧ c.toNat ≤ 214) ∨ (216 ≤ c.toNat ∧ c.toNat ≤ 222)
  · rw [if_pos hc] at ht
    omega
  · rw [if_neg hc] at ht
    omega

theorem alpha_pyLowerChar_of_alpha {c : Char} (h : pyIsAlphaChar c = true) :
    pyIsAlphaChar (pyLowerChar c) = true := by
  simp only [pyIsAlphaChar, Bool.or_eq_true, Bool.and_eq_true,
    decide_eq_true_eq] at h ⊢
  have ht := pyLowerChar_toNat c
  by_cases hc : (65 ≤ c.toNat ∧ c.toNat ≤ 90) ∨
      (192 ≤ c.toNat ∧ c.toNat ≤ 214) ∨ (216 ≤ c.toNat ∧ c.toNat ≤ 222)
  · rw [if_pos hc] at ht
    omega
  · rw [if_neg hc] at ht
    omega

theorem mem_pyStrip {s : Str} {c : Char} (h : c ∈ pyStrip s) : c ∈ s := by
  rw [pyStrip, List.mem_reverse] at h
  have h2 := (List.dropWhile_sublist pyIsSpaceChar).subset h
  rw [List.mem_reverse] at h2
  exact (List.dropWhile_sublist pyIsSpaceChar).subset h2

theorem ascii_of_mem_pyLower_pyStrip {s : Str} {c : Char}
    (hA : ∀ x ∈ s, x.toNat ≤ 127) (h : c ∈ pyLower (pyStrip s)) :
    c.toNat ≤ 127 := by
  obtain ⟨c0, hc0, rfl⟩ := List.mem_map.mp h
  exact pyLowerChar_ascii (hA c0 (mem_pyStrip hc0))

theorem alpha_eq_lowerAZ_of_mem_pyLower {s : Str} {c : Char}
    (hA : ∀ x ∈ s, x.toNat ≤ 127) (h : c ∈ pyLower s) :
    pyIsAlphaChar c = isLowerAZ c := by
  obtain ⟨c0, hc0, rfl⟩ := List.mem_map.mp h
  exact pyIsAlphaChar_pyLowerChar (hA c0 hc0)

theorem validateInput_empty {s : Str} (name : ArgName)
    (h : pyLower (pyStrip s) = []) :
    validateInput s name = .error (.emptyInput name) := by
  rw [validateInput]
  simp [h]

theorem validateInput_nonalpha {s : Str} (name : ArgName)
    (hne : pyLower (pyStrip s) ≠ [])
    (h : ∃ c ∈ pyLower (pyStrip s), pyIsAlphaChar c = false) :
    validateInput s name = .error (.nonAlphabetic name) := by
  have halpha : pyIsAlpha (pyLower (pyStrip s)) = false := by
    rw [pyIsAlpha]
    obtain ⟨c, hc, hlc⟩ := h
    have hall : (pyLower (pyStrip s)).all pyIsAlphaChar = false :=
      List.all_eq_false.mpr ⟨c, hc, by rw [hlc]; decide⟩
    rw [hall, Bool.and_false]
  rw [validateInput]
  simp [hne, halpha]

theorem validateInput_ok {s : Str} (name : ArgName)
    (hne : pyLower (pyStrip s) ≠ [])
    (h : ∀ c ∈ pyLower (pyStrip s), pyIsAlphaChar c = true) :
    validateInput s name = .ok (pyLower (pyStrip s)) := by
  have halpha : pyIsAlpha (pyLower (pyStrip s)) = true := by
    rw [pyIsAlpha, Bool.and_eq_true]
    exact ⟨by simp [List.isEmpty_iff, hne], List.all_eq_true.mpr h⟩
  rw [validateInput]
  simp [hne, halpha]

theorem except_bind_error {α β : Type} {e : Err} (f : α → Except Err β) :
    ((Except.error e : Except Err α) >>= f) = .error e := rfl

theorem fillBucket_pres {b b' : Int → List Word} {d : Int} (P : Word → Prop)
    (hP : ∀ x, ∀ w ∈ b x, P w) (h : fillBucket b d = .ok b') :
    ∀ x, ∀ w ∈ b' x, P w := by
  rw [fillBucket] at h
  by_cases hbd : b d ≠ []
  · rw [if_pos hbd] at h
    cases h
    exact hP
  · rw [if_neg hbd] at h
    cases hfn : findNearest b d with
    | none =>
      rw [hfn] at h
      cases h
    | some k =>
      rw [hfn] at h
      cases h
      intro x w hw
      by_cases hxd : x = d
      · exact hP k w (by simpa [hxd] using hw)
      · exact hP x w (by simpa [hxd] using hw)

theorem fallbackFill_pres {b0 b : Int → List Word} (P : Word → Prop)
    (hP : ∀ x, ∀ w ∈ b0 x, P w) (h : fallbackFill b0 = .ok b) :
    ∀ x, ∀ w ∈ b x, P w := by
  rw [fallbackFill] at h
  simp only [List.foldlM] at h
  cases h1 : fillBucket b0 1 with
  | error e => rw [h1, except_bind_error] at h; cases h
  | ok b1 =>
    rw [h1, except_bind_ok] at h
    cases h2 : fillBucket b1 2 with
    | error e => rw [h2, except_bind_error] at h; cases h
    | ok b2 =>
      rw [h2, except_bind_ok] at h
      cases h3 : fillBucket b2 3 with
      | error e => rw [h3, except_bind_error] at h; cases h
      | ok b3 =>
        rw [h3, except_bind_ok] at h
        cases h4 : fillBucket b3 4 with
        | error e => rw [h4, except_bind_error] at h; cases h
        | ok b4 =>
          rw [h4, except_bind_ok] at h
          cases h5 : fillBucket b4 5 with
          | error e => rw [h5, except_bind_error] at h; cases h
          | ok b5 =>
            rw [h5, except_bind_ok] at h
            cases h
            exact fillBucket_pres P
              (fillBucket_pres P
                (fillBucket_pres P
                  (fillBucket_pres P (fillBucket_pres P hP h1) h2) h3) h4) h5

theorem initBuckets_subset {words : List Word} {bk : Int → List Word}
    (h : initBuckets words = .ok bk) : ∀ x : Int, ∀ w ∈ bk x, w ∈ words := by
  apply fallbackFill_pres (fun w => w ∈ words) ?_ h
  intro x w hw
  exact (List.mem_filter.mp ((buildBuckets_eq_filter _ _ _ x) ▸ hw)).1

theorem loadWords_ok_ne_nil {file : Option (List Str)} {words : List Word}
    (h : loadWords file = .ok words) : words ≠ [] := by
  match file with
  | none => cases h
  | some lines =>
    rw [loadWords] at h
    by_cases hc : lines.filterMap (fun line =>
        if pyStrip line = [] then none else some (pyLower (pyStrip line))) = []
    · rw [if_pos hc] at h
      cases h
    · rw [if_neg hc] at h
      cases h
      exact hc

/-- C7: for every pair `minLen ≤ maxLen`, `_difficulty_for_length` equals the
spec's clamp formula, always lands in `1..5`, and is monotone in the length. -/
theorem C7_difficulty_formula (minLen maxLen : Nat) (h : minLen ≤ maxLen) :
    (∀ L : Nat,
        difficultyForLength minLen maxLen L = difficultySpec minLen maxLen L
        ∧ 1 ≤ difficultyForLength minLen maxLen L
        ∧ difficultyForLength minLen maxLen L ≤ 5)
    ∧ ∀ L1 L2 : Nat, L1 < L2 →
        difficultyForLength minLen maxLen L1 ≤
          difficultyForLength minLen maxLen L2 :=
  ⟨fun L => ⟨difficultyForLength_eq_spec minLen maxLen L,
      (difficultyForLength_range minLen maxLen L).1,
      (difficultyForLength_range minLen maxLen L).2⟩,
    fun _ _ h12 => difficultyForLength_mono h (Nat.le_of_lt h12)⟩

/-- Witness for C7 at `minLen = 2`, `maxLen = 5`, lengths 3 and 4. -/
theorem C7_difficulty_formula_witness :
    2 ≤ 5
    ∧ difficultyForLength 2 5 3 = difficultySpec 2 5 3
    ∧ 1 ≤ difficultyForLength 2 5 3 ∧ difficultyForLength 2 5 3 ≤ 5
    ∧ difficultyForLength 2 5 3 ≤ difficultyForLength 2 5 4 := by
  have h := C7_difficulty_formula 2 5 (by decide)
  exact ⟨by decide, (h.1 3).1, (h.1 3).2.1, (h.1 3).2.2, h.2 3 4 (by decide)⟩

/-- C4: for every `random.shuffle` outcome, `_shuffle_not_identity` returns a
permutation of its input; the result differs from the input whenever the
input has two distinct characters, and equals it when it does not. -/
theorem C4_shuffle_not_identity (word shuffled : Str) (indices : List Nat)
    (hs : List.Perm shuffled word)
    (hi : List.Perm indices (List.range word.length)) :
    List.Perm (shuffleNotIdentity word shuffled indices) word
    ∧ ((∃ a ∈ word, ∃ b ∈ word, a ≠ b) →
        shuffleNotIdentity word shuffled indices ≠ word)
    ∧ ((∀ a ∈ word, ∀ b ∈ word, a = b) →
        shuffleNotIdentity word shuffled indices = word) :=
  ⟨shuffleNotIdentity_perm hs hi,
    fun hdist => shuffleNotIdentity_ne hs hi hdist,
    fun hconst => shuffleNotIdentity_eq_of_const hs hi hconst⟩

/-- Witness for C4 on the word `ab` with an identity shuffle outcome. -/
theorem C4_shuffle_not_identity_witness :
    List.Perm (['a', 'b'] : Str) ['a', 'b']
    ∧ List.Perm ([1, 0] : List Nat) (List.range (['a', 'b'] : Str).length)
    ∧ List.Perm (shuffleNotIdentity ['a', 'b'] ['a', 'b'] [1, 0]) ['a', 'b']
    ∧ shuffleNotIdentity ['a', 'b'] ['a', 'b'] [1, 0] ≠ ['a', 'b'] := by
  have h := C4_shuffle_not_identity ['a', 'b'] ['a', 'b'] [1, 0]
    (by decide) (by decide)
  exact ⟨by decide, by decide, h.1, h.2.1 (by decide)⟩

/-- C6: for every non-empty word list, the fallback fill of `_init` succeeds
(the `RuntimeError` branch is unreachable) and leaves every difficulty
bucket `1..5` non-empty. -/
theorem C6_buckets_nonempty (words : List Word) (h : words ≠ []) :
    ∃ b, initBuckets words = .ok b ∧ ∀ d : Int, 1 ≤ d → d ≤ 5 → b d ≠ [] := by
  obtain ⟨b, hb, hne, _⟩ := initBuckets_spec h
  exact ⟨b, hb, hne⟩

/-- Witness for C6 on a one-word dictionary. -/
theorem C6_buckets_nonempty_witness :
    ([['a']] : List Word) ≠ []
    ∧ ∃ b, initBuckets [['a']] = .ok b
        ∧ ∀ d : Int, 1 ≤ d → d ≤ 5 → b d ≠ [] :=
  ⟨by decide, C6_buckets_nonempty [['a']] (by decide)⟩

/-- C5 (amended): for every ASCII argument of `solve` / `verify`, an
argument that is empty after trimming is rejected with the empty-input
error, one whose trimmed lowercased form has a character outside a-z is
rejected with the non-alphabetic error, and every other argument is
accepted in its trimmed, lowercased form.  (As stated, without the ASCII
restriction, the claim is false of the program: `str.isalpha` accepts
letters beyond a-z, so a non-ASCII letter such as é is accepted — see the
counterexample.) -/
theorem C5_validation (words : List Word) (p a : Str)
    (hpA : ∀ c ∈ p, c.toNat ≤ 127) (haA : ∀ c ∈ a, c.toNat ≤ 127) :
    (pyLower (pyStrip p) = [] →
      solve words p = .error (.emptyInput .puzzle)
      ∧ verify words p a = .error (.emptyInput .puzzle))
    ∧ (pyLower (pyStrip p) ≠ [] →
        (∃ c ∈ pyLower (pyStrip p), isLowerAZ c = false) →
        solve words p = .error (.nonAlphabetic .puzzle)
        ∧ verify words p a = .error (.nonAlphabetic .puzzle))
    ∧ (pyLower (pyStrip p) ≠ [] →
        (∀ c ∈ pyLower (pyStrip p), isLowerAZ c = true) →
        validateInput p .puzzle = .ok (pyLower (pyStrip p))
        ∧ solve words p =
            .ok (buildAnagramMap words (signature (pyLower (pyStrip p)))))
    ∧ (∀ np, validateInput p .puzzle = .ok np →
        (pyLower (pyStrip a) = [] →
          verify words p a = .error (.emptyInput .answer))
        ∧ (pyLower (pyStrip a) ≠ [] →
            (∃ c ∈ pyLower (pyStrip a), isLowerAZ c = false) →
            verify words p a = .error (.nonAlphabetic .answer))) := by
  have hpA2 : ∀ x ∈ pyStrip p, x.toNat ≤ 127 :=
    fun x hx => hpA x (mem_pyStrip hx)
  have haA2 : ∀ x ∈ pyStrip a, x.toNat ≤ 127 :=
    fun x hx => haA x (mem_pyStrip hx)
  refine ⟨fun h => ?_, fun hne h => ?_, fun hne h => ?_, fun np hnp => ?_⟩
  · have hv := validateInput_empty (s := p) .puzzle h
    exact ⟨by simp only [solve, hv], by simp only [verify, hv]⟩
  · have h2 : ∃ c ∈ pyLower (pyStrip p), pyIsAlphaChar c = false := by
      obtain ⟨c, hc, hlc⟩ := h
      exact ⟨c, hc, by rw [alpha_eq_lowerAZ_of_mem_pyLower hpA2 hc, hlc]⟩
    have hv := validateInput_nonalpha (s := p) .puzzle hne h2
    exact ⟨by simp only [solve, hv], by simp only [verify, hv]⟩
  · have h2 : ∀ c ∈ pyLower (pyStrip p), pyIsAlphaChar c = true :=
      fun c hc => pyIsAlphaChar_of_lowerAZ (h c hc)
    have hv := validateInput_ok (s := p) .puzzle hne h2
    exact ⟨hv, by simp only [solve, hv]⟩
  · constructor
    · intro h
      have hv := validateInput_empty (s := a) .answer h
      simp only [verify, hnp, hv]
    · intro hne h
      have h2 : ∃ c ∈ pyLower (pyStrip a), pyIsAlphaChar c = false := by
        obtain ⟨c, hc, hlc⟩ := h
        exact ⟨c, hc, by rw [alpha_eq_lowerAZ_of_mem_pyLower haA2 hc, hlc]⟩
      have hv := validateInput_nonalpha (s := a) .answer hne h2
      simp only [verify, hnp, hv]

/-- Counterexample to C5 as stated: the argument é is non-empty after
trimming, its trimmed lowercased form is the single letter é — not a letter
a-z — yet no non-alphabetic error is raised: Python's `str.isalpha` accepts
é, so `solve` accepts the input and returns the empty list. -/
theorem C5_validation_counterexample :
    pyLower (pyStrip (['é'] : Str)) = ['é']
    ∧ (∀ c ∈ pyLower (pyStrip (['é'] : Str)), isLowerAZ c = false)
    ∧ validateInput ['é'] .puzzle = .ok ['é']
    ∧ solve [] ['é'] = .ok [] :=
  ⟨by decide, by decide, rfl, rfl⟩

/-- Witness for C5 on the empty string and on `d-o-g` (spec scenario 3). -/
theorem C5_validation_witness :
    (pyLower (pyStrip ([] : Str)) = []
      ∧ solve [] [] = .error (.emptyInput .puzzle))
    ∧ (pyLower (pyStrip (['d', '-', 'o', 'g'] : Str)) ≠ []
      ∧ (∃ c ∈ pyLower (pyStrip (['d', '-', 'o', 'g'] : Str)),
          isLowerAZ c = false)
      ∧ solve [] ['d', '-', 'o', 'g'] = .error (.nonAlphabetic .puzzle)) :=
  ⟨⟨by decide, ((C5_validation [] [] [] (by decide) (by decide)).1
      (by decide)).1⟩,
    ⟨by decide, by decide,
      ((C5_validation [] ['d', '-', 'o', 'g'] [] (by decide) (by decide)).2.1
        (by decide) (by decide)).1⟩⟩

/-- C1: for every puzzle that passes validation, `solve` returns exactly the
dictionary words whose signature matches the normalized puzzle's, in
dictionary order with duplicates, the empty list (not an error) when none
matches, and it finds every dictionary word from any permutation of it. -/
theorem C1_solve (words : List Word) (puzzle np : Str)
    (h : validateInput puzzle .puzzle = .ok np) :
    solve words puzzle =
      .ok (words.filter (fun w => signature w == signature np))
    ∧ ((∀ w ∈ words, signature w ≠ signature np) →
        solve words puzzle = .ok [])
    ∧ ∀ w ∈ words, w ≠ [] → (∀ c ∈ w, isLowerAZ c = true) →
        ∀ q : Str, List.Perm q w →
          ∃ sols, solve words q = .ok sols ∧ w ∈ sols := by
  have h1 : solve words puzzle =
      .ok (words.filter (fun w => signature w == signature np)) := by
    simp only [solve, h, buildAnagramMap_eq_filter]
  refine ⟨h1, fun hnone => ?_, fun w hw hne halpha q hq => ?_⟩
  · rw [h1]
    congr 1
    rw [List.filter_eq_nil_iff]
    intro w hw
    simp only [beq_iff_eq]
    exact hnone w hw
  · have hqne : q ≠ [] := by
      intro hc
      rw [hc] at hq
      exact hne hq.symm.eq_nil
    have hqalpha : ∀ c ∈ q, isLowerAZ c = true :=
      fun c hc => halpha c (hq.mem_iff.mp hc)
    refine ⟨_, solve_ok_of_lowerAZ words hqne hqalpha, ?_⟩
    rw [signature_perm hq]
    exact mem_buildAnagramMap_self hw

/-- Witness for C1 on the dictionary `dog, god` and the puzzle `dgo`. -/
theorem C1_solve_witness :
    validateInput ['d', 'g', 'o'] .puzzle = .ok ['d', 'g', 'o']
    ∧ solve [['d', 'o', 'g'], ['g', 'o', 'd']] ['d', 'g', 'o'] =
        .ok [['d', 'o', 'g'], ['g', 'o', 'd']]
    ∧ ∃ sols, solve [['d', 'o', 'g'], ['g', 'o', 'd']] ['o', 'g', 'd'] =
        .ok sols ∧ ['d', 'o', 'g'] ∈ sols := by
  have h := C1_solve [['d', 'o', 'g'], ['g', 'o', 'd']] ['d', 'g', 'o']
    ['d', 'g', 'o'] (by rfl)
  refine ⟨by rfl, ?_,
    h.2.2 ['d', 'o', 'g'] (by decide) (by decide) (by decide)
      ['o', 'g', 'd'] (by decide)⟩
  rw [h.1]
  rfl

/-- C3: for validated puzzle and answer, `verify` returns `false` (without an
error) when their signatures differ, and otherwise returns `true` exactly
when the normalized answer is one of `solve`'s results for the puzzle. -/
theorem C3_verify (words : List Word) (p a np na : Str)
    (hp : validateInput p .puzzle = .ok np)
    (ha : validateInput a .answer = .ok na) :
    (signature np ≠ signature na → verify words p a = .ok false)
    ∧ (signature np = signature na →
        (verify words p a = .ok true ↔
          ∃ sols, solve words p = .ok sols ∧ na ∈ sols)) := by
  constructor
  · intro hne
    simp only [verify, hp, ha, if_pos hne]
  · intro heq
    have hcond : ¬(signature np ≠ signature na) := fun hc => hc heq
    have hsolve : solve words p = .ok (buildAnagramMap words (signature np)) := by
      simp only [solve, hp]
    have hver : verify words p a =
        .ok (decide (na ∈ buildAnagramMap words (signature np))) := by
      simp only [verify, hp, ha, if_neg hcond]
    rw [hver]
    constructor
    · intro htrue
      injection htrue with h2
      exact ⟨_, hsolve, of_decide_eq_true h2⟩
    · rintro ⟨sols, hsols, hmem⟩
      rw [hsolve] at hsols
      injection hsols with h2
      rw [← h2] at hmem
      rw [decide_eq_true hmem]

/-- Witness for C3: `verify("dgo", "dog")` is true and `verify("dgo", "cat")`
is false on the dictionary `dog, god` (spec scenario 2). -/
theorem C3_verify_witness :
    verify [['d', 'o', 'g'], ['g', 'o', 'd']] ['d', 'g', 'o'] ['d', 'o', 'g'] =
      .ok true
    ∧ verify [['d', 'o', 'g'], ['g', 'o', 'd']] ['d', 'g', 'o']
        ['c', 'a', 't'] = .ok false := by
  constructor
  · exact ((C3_verify [['d', 'o', 'g'], ['g', 'o', 'd']] ['d', 'g', 'o']
      ['d', 'o', 'g'] ['d', 'g', 'o'] ['d', 'o', 'g'] (by rfl)
      (by rfl)).2 (by decide)).mpr
      ⟨[['d', 'o', 'g'], ['g', 'o', 'd']], by rfl, by decide⟩
  · exact (C3_verify [['d', 'o', 'g'], ['g', 'o', 'd']] ['d', 'g', 'o']
      ['c', 'a', 't'] ['d', 'g', 'o'] ['c', 'a', 't'] (by rfl)
      (by rfl)).1 (by decide)

theorem loadWords_some (lines : List Str) :
    loadWords (some lines) =
      (if lines.filterMap (fun line =>
            if pyStrip line = [] then none
            else some (pyLower (pyStrip line))) = []
        then .error .emptyDictionary
        else .ok (lines.filterMap (fun line =>
            if pyStrip line = [] then none
            else some (pyLower (pyStrip line))))) := by
  simp only [loadWords]

/-- C9 (amended): the loader strips each line, skips blank lines, lowercases
the rest, and keeps file order and duplicates; every loaded word is
non-empty and contains no uppercase ASCII letter, and is entirely a-z
whenever every stripped source line is alphabetic; a missing file gives the
source-missing error and an all-blank file the empty-source error. -/
theorem C9_loader (lines : List Str) :
    loadWords none = .error .fileNotFound
    ∧ (lines.filterMap (fun line =>
          if pyStrip line = [] then none
          else some (pyLower (pyStrip line))) = [] →
        loadWords (some lines) = .error .emptyDictionary)
    ∧ ∀ ws, loadWords (some lines) = .ok ws →
        ws = lines.filterMap (fun line =>
          if pyStrip line = [] then none else some (pyLower (pyStrip line)))
        ∧ (∀ w ∈ ws, w ≠ [] ∧ ∀ c ∈ w, ¬(65 ≤ c.toNat ∧ c.toNat ≤ 90))
        ∧ ((∀ line ∈ lines, ∀ c ∈ pyStrip line, pyIsAlphaChar c = true) →
            ∀ w ∈ ws, ∀ c ∈ w, pyIsAlphaChar c = true)
        ∧ ((∀ line ∈ lines, ∀ c ∈ pyStrip line,
              pyIsAlphaChar c = true ∧ c.toNat ≤ 127) →
            ∀ w ∈ ws, ∀ c ∈ w, isLowerAZ c = true) := by
  refine ⟨rfl, fun h => ?_, fun ws hws => ?_⟩
  · rw [loadWords_some, if_pos h]
  · rw [loadWords_some] at hws
    by_cases hc : lines.filterMap (fun line =>
        if pyStrip line = [] then none
        else some (pyLower (pyStrip line))) = []
    · rw [if_pos hc] at hws
      cases hws
    · rw [if_neg hc] at hws
      injection hws with heq
      subst heq
      refine ⟨rfl, fun w hw => ?_, fun halpha w hw c hc2 => ?_,
        fun halpha w hw c hc2 => ?_⟩
      · obtain ⟨line, hline, hf⟩ := List.mem_filterMap.mp hw
        by_cases hb : pyStrip line = []
        · rw [if_pos hb] at hf
          cases hf
        · rw [if_neg hb] at hf
          injection hf with hf
          subst hf
          constructor
          · rw [pyLower]
            simpa using hb
          · intro c hcmem
            obtain ⟨c0, _, rfl⟩ := List.mem_map.mp hcmem
            exact pyLowerChar_not_upper c0
      · obtain ⟨line, hline, hf⟩ := List.mem_filterMap.mp hw
        by_cases hb : pyStrip line = []
        · rw [if_pos hb] at hf
          cases hf
        · rw [if_neg hb] at hf
          injection hf with hf
          subst hf
          obtain ⟨c0, hc0, rfl⟩ := List.mem_map.mp hc2
          exact alpha_pyLowerChar_of_alpha (halpha line hline c0 hc0)
      · obtain ⟨line, hline, hf⟩ := List.mem_filterMap.mp hw
        by_cases hb : pyStrip line = []
        · rw [if_pos hb] at hf
          cases hf
        · rw [if_neg hb] at hf
          injection hf with hf
          subst hf
          obtain ⟨c0, hc0, rfl⟩ := List.mem_map.mp hc2
          exact lowerAZ_pyLowerChar_of_alpha (halpha line hline c0 hc0).1
            (halpha line hline c0 hc0).2

/-- Counterexample to C9 as stated: a source line `a1` loads verbatim as the
word `a1`, which is not alphabetic-only — the loader never checks this. -/
theorem C9_loader_counterexample :
    loadWords (some [['a', '1']]) = .ok [['a', '1']]
    ∧ pyIsAlpha ['a', '1'] = false :=
  ⟨rfl, by decide⟩

/-- C10: `_init` is atomic: when loading fails it propagates the error with
the anagram map and buckets left unset; when loading succeeds it installs
both structures and reports no error (so no caller can see a half-built
index); and once both structures are set it returns at once, rebuilding
nothing. -/
theorem C10_init_atomic (st : ModState) (file : Option (List Str))
    (hfresh : st.anagramMap = none ∨ st.bucketWords = none) :
    (∀ e, loadWords file = .error e → initModel st file = (st, some e))
    ∧ (∀ words, loadWords file = .ok words →
        ∃ st2, initModel st file = (st2, none)
          ∧ st2.anagramMap.isSome = true ∧ st2.bucketWords.isSome = true)
    ∧ (∀ st3 : ModState, st3.anagramMap.isSome = true →
        st3.bucketWords.isSome = true → initModel st3 file = (st3, none)) := by
  have hcheck : (st.anagramMap.isSome && st.bucketWords.isSome) = false := by
    rcases hfresh with h | h <;> simp [h]
  refine ⟨fun e he => ?_, fun words hw => ?_, fun st3 h1 h2 => ?_⟩
  · rw [initModel, if_neg (by simp [hcheck]), he]
  · have hwne := loadWords_ok_ne_nil hw
    obtain ⟨b, hb, _, _⟩ := initBuckets_spec hwne
    rw [initBuckets] at hb
    rw [initModel, if_neg (by simp [hcheck])]
    simp only [hw]
    rw [hb]
    exact ⟨_, rfl, rfl, rfl⟩
  · rw [initModel, if_pos (by simp [h1, h2])]

/-- Witness for C10: a fresh state with a missing file keeps both structures
unset and surfaces the file-not-found error. -/
theorem C10_init_atomic_witness :
    initModel ⟨none, none, none, none⟩ none =
      (⟨none, none, none, none⟩, some .fileNotFound) :=
  (C10_init_atomic ⟨none, none, none, none⟩ none (Or.inl rfl)).1
    .fileNotFound rfl

theorem headD_mem {l : List Word} (h : l ≠ []) : l.headD [] ∈ l := by
  cases l with
  | nil => exact absurd rfl h
  | cons a t => exact List.mem_cons_self a t

theorem generatePuzzle_unfold (dictWords : List Word) (bk : Int → List Word)
    (d randD : Int) (unsolvable : Bool) (choose : List Word → Word)
    (shuffleList : List Word → List Word) (shuffleStr : Str → Str)
    (shuffleIdx : Str → List Nat) (hd : 1 ≤ d ∧ d ≤ 5) :
    generatePuzzle dictWords bk (some d) unsolvable randD choose shuffleList
      shuffleStr shuffleIdx =
      (if !unsolvable then
        (if bk d = [] then .error .indexError
          else .ok (shuffleNotIdentity (choose (bk d))
            (shuffleStr (choose (bk d))) (shuffleIdx (choose (bk d)))))
        else generateUnsolvableFromWords dictWords (bk d) shuffleList
          shuffleStr shuffleIdx) := by
  have hmem : d ∈ ([1, 2, 3, 4, 5] : List Int) := by
    have hc : d = 1 ∨ d = 2 ∨ d = 3 ∨ d = 4 ∨ d = 5 := by omega
    rcases hc with rfl | rfl | rfl | rfl | rfl <;> simp
  simp only [generatePuzzle, if_pos hmem]

/-- C2: for every difficulty `1..5` and every outcome of the random shuffles,
a string returned (rather than an error) by the unsolvable generator over an
initialised index is a permutation of a single-vowel mutation of a
dictionary word, its signature is absent from the anagram map, and `solve`
on it returns the empty list. -/
theorem C2_unsolvable (words : List Word) (d randD : Int)
    (choose : List Word → Word) (shuffleList : List Word → List Word)
    (shuffleStr : Str → Str) (shuffleIdx : Str → List Nat)
    (hd : 1 ≤ d ∧ d ≤ 5)
    (halpha : ∀ w ∈ words, ∀ c ∈ w, isLowerAZ c = true)
    (hsl : ∀ l, List.Perm (shuffleList l) l)
    (hss : ∀ s, List.Perm (shuffleStr s) s)
    (hsi : ∀ s, List.Perm (shuffleIdx s) (List.range s.length)) :
    ∀ p, (initBuckets words >>= fun bk =>
        generatePuzzle words bk (some d) true randD choose shuffleList
          shuffleStr shuffleIdx) = .ok p →
      sigMem words (signature p) = false
      ∧ buildAnagramMap words (signature p) = []
      ∧ (∃ base ∈ words, ∃ m ∈ singleVowelMutations base, List.Perm p m)
      ∧ solve words p = .ok [] := by
  intro p hgen
  cases hib : initBuckets words with
  | error e =>
    rw [hib, except_bind_error] at hgen
    cases hgen
  | ok bk =>
    rw [hib, except_bind_ok] at hgen
    rw [generatePuzzle_unfold words bk d randD true choose shuffleList
      shuffleStr shuffleIdx hd] at hgen
    rw [if_neg (by decide)] at hgen
    rw [generateUnsolvableFromWords] at hgen
    by_cases hwv : (bk d).filter hasVowel = []
    · rw [if_pos hwv] at hgen
      cases hgen
    · rw [if_neg hwv] at hgen
      cases hfu : findUnsolvable words (shuffleList ((bk d).filter hasVowel)) with
      | none =>
        rw [hfu] at hgen
        cases hgen
      | some m =>
        rw [hfu] at hgen
        injection hgen with hgen
        rw [findUnsolvable] at hfu
        obtain ⟨base, hbsl, hfind⟩ := List.exists_of_findSome?_eq_some hfu
        have hsigmem : sigMem words (signature m) = false := by
          have := List.find?_some hfind
          simpa using this
        have hmmut : m ∈ singleVowelMutations base :=
          List.mem_of_find?_eq_some hfind
        have hbwv : base ∈ (bk d).filter hasVowel := (hsl _).mem_iff.mp hbsl
        obtain ⟨hbbk, hbv⟩ := List.mem_filter.mp hbwv
        have hbw : base ∈ words := initBuckets_subset hib d base hbbk
        have hmalpha : ∀ c ∈ m, isLowerAZ c = true :=
          mutation_lowerAZ (halpha base hbw) hmmut
        have hmne : m ≠ [] := mutation_ne_nil (ne_nil_of_hasVowel hbv) hmmut
        have hperm : List.Perm (shuffleNotIdentity m (shuffleStr m)
            (shuffleIdx m)) m := shuffleNotIdentity_perm (hss m) (hsi m)
        rw [hgen] at hperm
        have hpalpha : ∀ c ∈ p, isLowerAZ c = true :=
          fun c hc => hmalpha c (hperm.mem_iff.mp hc)
        have hpne : p ≠ [] := by
          intro hc
          rw [hc] at hperm
          exact hmne hperm.symm.eq_nil
        have hsig : signature p = signature m := signature_perm hperm
        refine ⟨?_, ?_, ⟨base, hbw, m, hmmut, hperm⟩, ?_⟩
        · rw [hsig]
          exact hsigmem
        · rw [hsig]
          exact buildAnagramMap_eq_nil_of_sigMem_false hsigmem
        · rw [solve_ok_of_lowerAZ words hpne hpalpha, hsig,
            buildAnagramMap_eq_nil_of_sigMem_false hsigmem]

/-- Witness for C2 on the dictionary `dog` at difficulty 1: the generated
puzzle is `adg`, whose signature has no anagram class, and `solve` on it
returns the empty list. -/
theorem C2_unsolvable_witness :
    sigMem [['d', 'o', 'g']] (signature ['a', 'd', 'g']) = false
    ∧ buildAnagramMap [['d', 'o', 'g']] (signature ['a', 'd', 'g']) = []
    ∧ (∃ base ∈ [['d', 'o', 'g']], ∃ m ∈ singleVowelMutations base,
        List.Perm (['a', 'd', 'g'] : Str) m)
    ∧ solve [['d', 'o', 'g']] ['a', 'd', 'g'] = .ok [] :=
  C2_unsolvable [['d', 'o', 'g']] 1 1 (fun l => l.headD []) id id
    (fun s => List.range s.length) ⟨by decide, by decide⟩ (by decide)
    (fun l => List.Perm.refl l) (fun s => List.Perm.refl s)
    (fun s => List.Perm.refl (List.range s.length)) ['a', 'd', 'g'] (by rfl)

/-- C8: for every difficulty `1..5` and every outcome of the random choices,
a string returned by the solvable generator over an initialised index is a
non-empty permutation of some word of difficulty bucket `d` (hence of a
dictionary word), so `solve` on it returns a non-empty list containing that
word. -/
theorem C8_solvable (words : List Word) (d randD : Int)
    (choose : List Word → Word) (shuffleList : List Word → List Word)
    (shuffleStr : Str → Str) (shuffleIdx : Str → List Nat)
    (hd : 1 ≤ d ∧ d ≤ 5)
    (halpha : ∀ w ∈ words, ∀ c ∈ w, isLowerAZ c = true)
    (hnil : ∀ w ∈ words, w ≠ [])
    (hchoose : ∀ l : List Word, l ≠ [] → choose l ∈ l)
    (hss : ∀ s, List.Perm (shuffleStr s) s)
    (hsi : ∀ s, List.Perm (shuffleIdx s) (List.range s.length)) :
    ∀ p, (initBuckets words >>= fun bk =>
        generatePuzzle words bk (some d) false randD choose shuffleList
          shuffleStr shuffleIdx) = .ok p →
      p ≠ []
      ∧ ∃ bk, initBuckets words = .ok bk
        ∧ ∃ base ∈ bk d, base ∈ words ∧ List.Perm p base
          ∧ ∃ sols, solve words p = .ok sols ∧ base ∈ sols ∧ sols ≠ [] := by
  intro p hgen
  cases hib : initBuckets words with
  | error e =>
    rw [hib, except_bind_error] at hgen
    cases hgen
  | ok bk =>
    rw [hib, except_bind_ok] at hgen
    rw [generatePuzzle_unfold words bk d randD false choose shuffleList
      shuffleStr shuffleIdx hd] at hgen
    rw [if_pos (by decide)] at hgen
    by_cases hbd : bk d = []
    · rw [if_pos hbd] at hgen
      cases hgen
    · rw [if_neg hbd] at hgen
      injection hgen with hgen
      have hbase : choose (bk d) ∈ bk d := hchoose _ hbd
      have hbw : choose (bk d) ∈ words := initBuckets_subset hib d _ hbase
      have hperm : List.Perm (shuffleNotIdentity (choose (bk d))
          (shuffleStr (choose (bk d))) (shuffleIdx (choose (bk d))))
          (choose (bk d)) :=
        shuffleNotIdentity_perm (hss _) (hsi _)
      rw [hgen] at hperm
      have hpalpha : ∀ c ∈ p, isLowerAZ c = true :=
        fun c hc => halpha _ hbw c (hperm.mem_iff.mp hc)
      have hpne : p ≠ [] := by
        intro hc
        rw [hc] at hperm
        exact hnil _ hbw hperm.symm.eq_nil
      have hmem : choose (bk d) ∈
          buildAnagramMap words (signature p) := by
        rw [signature_perm hperm]
        exact mem_buildAnagramMap_self hbw
      exact ⟨hpne, bk, rfl, choose (bk d), hbase, hbw, hperm,
        _, solve_ok_of_lowerAZ words hpne hpalpha, hmem,
        List.ne_nil_of_mem hmem⟩

/-- Witness for C8 on the dictionary `dog` at difficulty 1: the generated
puzzle is `odg`, and `solve` on it returns `dog`. -/
theorem C8_solvable_witness :
    (['o', 'd', 'g'] : Str) ≠ []
    ∧ ∃ bk, initBuckets [['d', 'o', 'g']] = .ok bk
      ∧ ∃ base ∈ bk 1, base ∈ [['d', 'o', 'g']]
        ∧ List.Perm (['o', 'd', 'g'] : Str) base
        ∧ ∃ sols, solve [['d', 'o', 'g']] ['o', 'd', 'g'] = .ok sols
          ∧ base ∈ sols ∧ sols ≠ [] :=
  C8_solvable [['d', 'o', 'g']] 1 1 (fun l => l.headD []) id id
    (fun s => List.range s.length) ⟨by decide, by decide⟩ (by decide)
    (by decide) (fun l => headD_mem) (fun s => List.Perm.refl s)
    (fun s => List.Perm.refl (List.range s.length)) ['o', 'd', 'g'] (by rfl)

/-- Witness for C9: a file with one padded mixed-case line and one blank line
loads as the single stripped lowercased word `dog`. -/
theorem C9_loader_witness :
    loadWords (some [[' ', 'D', 'o', 'G'], []]) = .ok [['d', 'o', 'g']]
    ∧ (∀ w ∈ ([['d', 'o', 'g']] : List Word),
        w ≠ [] ∧ ∀ c ∈ w, ¬(65 ≤ c.toNat ∧ c.toNat ≤ 90))
    ∧ (∀ w ∈ ([['d', 'o', 'g']] : List Word), ∀ c ∈ w, isLowerAZ c = true) := by
  have h := (C9_loader [[' ', 'D', 'o', 'G'], []]).2.2 [['d', 'o', 'g']] (by rfl)
  exact ⟨by rfl, h.2.1, h.2.2.2 (by decide)⟩
